import Mathlib

/-!
# Verification of the veiled exclusion-reconciliation engine

Shallow embedding of the core of the `veiled` tool: the artifact-name
matcher (`src/builtins.rs`), the scanner and its git sub-scan parser
(`src/scanner.rs`), the persisted registry (`src/registry.rs`), the
reconciliation steps (`src/commands/run.rs`) and the batch
exclusion-status query (`src/tmutil.rs`).

External effects (the filesystem, the `git` and `tmutil` subprocesses,
the backup-exclusion adapter) are passed in as explicit oracles; paths
are modelled as lists of components (`List String`); the registry is a
plain structure.
-/

namespace Veiled

/-! ## Artifact matcher (`src/builtins.rs`) -/

/-- The fixed artifact directory-name list `BUILTIN_DIRS` from
`src/builtins.rs`, verbatim. -/
def BUILTIN_DIRS : List String :=
  [ "node_modules", ".next", ".nuxt", "dist", "build", "out", ".turbo",
    ".cache", ".vite", ".vercel", ".output", ".parcel-cache", "coverage",
    ".nyc_output",
    ".venv", "venv", "__pycache__", ".mypy_cache", ".pytest_cache",
    "target", ".gradle",
    "vendor",
    "Pods", ".build",
    ".idea", "tmp", ".tmp" ]

/-- `builtins::is_builtin`: exact, case-sensitive membership in
`BUILTIN_DIRS`. -/
def is_builtin (name : String) : Bool :=
  BUILTIN_DIRS.contains name

/-! ## String primitives

Rust's `str::split`, `str::trim`, `str::lines` and `str::starts_with`
are modelled by structural recursion over the character list of the
string (`String.data`). -/

/-- Rust `str::split(sep)` for a one-character separator: every
occurrence separates, adjacent separators yield empty pieces, and the
empty string yields one empty piece. -/
def splitChar (sep : Char) : List Char → List (List Char)
  | [] => [[]]
  | c :: cs =>
    if c = sep then [] :: splitChar sep cs
    else
      match splitChar sep cs with
      | [] => [[c]]
      | h :: t => (c :: h) :: t

/-- The whitespace characters relevant to the ASCII output handled
here (Rust `str::trim` uses Unicode `White_Space`; the subprocess
outputs parsed by the tool are ASCII). -/
def isAsciiWhite (c : Char) : Bool :=
  c = ' ' || c = '\t' || c = '\n' || c = '\r'

/-- Rust `str::trim`: drop leading and trailing whitespace. -/
def trimList (cs : List Char) : List Char :=
  ((cs.dropWhile isAsciiWhite).reverse.dropWhile isAsciiWhite).reverse

/-- Rust `str::starts_with(pre)`. -/
def strStartsWith (s pre : String) : Bool :=
  List.isPrefixOf pre.data s.data

/-- Rust `str::ends_with(suf)`. -/
def strEndsWith (s suf : String) : Bool :=
  List.isSuffixOf suf.data s.data

/-! ## Git-ignored listing parser (`scanner::parse_git_ignored`)

A filesystem path is a list of components.  `pathComponents` models
`std::path::Path::components()` for the relative paths git emits:
split on the separator, drop empty components, normalise away inner
`.` components (a leading `.` is kept, as in Rust). -/

def pathComponents (s : String) : List String :=
  match ((splitChar '/' s.data).map String.mk).filter (fun c => c ≠ "") with
  | [] => []
  | c :: rest => c :: rest.filter (fun d => d ≠ ".")

/-- The inner loop of `parse_git_ignored`: walk the components,
accumulating a prefix, and stop at the first component whose name is
in the builtin set; return that prefix, or `none` when no component
matches. -/
def firstBuiltinSeg : List String → Option (List String)
  | [] => none
  | c :: rest =>
    if is_builtin c then some [c]
    else (firstBuiltinSeg rest).map (fun pre => c :: pre)

/-- The NUL-delimited entries of one `git ls-files -z` output:
split on NUL, trim each piece, drop empties (`output.split('\0')`
followed by `line.trim()` and the empty-line `continue`). -/
def gitEntries (output : String) : List String :=
  ((splitChar (Char.ofNat 0) output.data).map
    (fun cs => String.mk (trimList cs))).filter (fun l => l ≠ "")

/-- `scanner::parse_git_ignored`: for each entry, push components until
one is builtin; when that happens insert `repo_path.join(prefix)` into
a set.  The `HashSet` is modelled as first-occurrence deduplication. -/
def parse_git_ignored (repo : List String) (output : String) :
    List (List String) :=
  (gitEntries output).foldl
    (fun acc line =>
      match firstBuiltinSeg (pathComponents line) with
      | some pre =>
        let p := repo ++ pre
        if acc.contains p then acc else acc ++ [p]
      | none => acc)
    []

/-! ## Chunking of git reprepository roots (`scanner::traverse`, lines 169-192) -/

/-- Rust's `slice::chunks(k)` on a list: successive pieces of `k`
elements, the last possibly shorter.  `chunks` panics on `k = 0`; the
caller always passes `k ≥ 1`, and we return the whole list as one
chunk in the impossible `k = 0` case. -/
def chunksList (k : Nat) : List α → List (List α)
  | [] => []
  | x :: xs =>
    if _h : k = 0 then [x :: xs]
    else (x :: xs).take k :: chunksList k ((x :: xs).drop k)
termination_by xs => xs.length
decreasing_by
  simp only [List.length_drop, List.length_cons]
  omega

/-- The chunk size used by `traverse`: `(git_repos.len() / 8).max(1)`. -/
def gitChunkSize (n : Nat) : Nat := max (n / 8) 1

/-- The number of chunks (= spawned worker threads) `traverse` creates
for `n` discovered repository roots. -/
def gitChunkCount (n : Nat) : Nat :=
  (chunksList (gitChunkSize n) (List.range n)).length

/-! ## Plain-tree traversal (`scanner::traverse`)

The filesystem is an oracle: `isDir` answers `Path::is_dir`, and
`readDir` answers `fs::read_dir` (`none` = unreadable), yielding the
directory entries with the data `traverse` inspects (`file_name`,
`file_type().is_dir()`, `file_type().is_symlink()`).  The loop is
given fuel; every theorem below holds for every fuel value. -/

/-- One `fs::read_dir` entry as `traverse` sees it. -/
structure DirEntry where
  name : String
  isDir : Bool
  isSymlink : Bool
deriving DecidableEq

/-- The filesystem oracle. -/
structure Fs where
  isDir : List String → Bool
  readDir : List String → Option (List DirEntry)

/-- The `for entry in entries` body of `traverse`: skip non-directories
and symlinks; a child whose basename is builtin is recorded as a
candidate, any other child is queued for descent.  Returns
(recorded candidates, children to push), each in entry order. -/
def processEntries (dir : List String) (entries : List DirEntry) :
    List (List String) × List (List String) :=
  entries.foldl
    (fun acc e =>
      if !e.isDir || e.isSymlink then acc
      else if is_builtin e.name then (acc.1 ++ [dir ++ [e.name]], acc.2)
      else (acc.1, acc.2 ++ [dir ++ [e.name]]))
    ([], [])

/-- The `while let Some(dir) = stack.pop()` loop of `traverse`.  The
stack's top is the list head (Rust pops from the `Vec`'s end; children
are re-reversed on push so pop order matches).  Accumulates the plain
candidates and the deferred git repository roots. -/
def traverseLoop (fs : Fs) (ignoreSet : List (List String)) :
    Nat → List (List String) → List (List String) → List (List String) →
    List (List String) × List (List String)
  | 0, _, results, gitRepos => (results, gitRepos)
  | _ + 1, [], results, gitRepos => (results, gitRepos)
  | fuel + 1, dir :: rest, results, gitRepos =>
    if !fs.isDir dir then traverseLoop fs ignoreSet fuel rest results gitRepos
    else if ignoreSet.contains dir then
      traverseLoop fs ignoreSet fuel rest results gitRepos
    else if fs.isDir (dir ++ [".git"]) then
      traverseLoop fs ignoreSet fuel rest results (gitRepos ++ [dir])
    else
      match fs.readDir dir with
      | none => traverseLoop fs ignoreSet fuel rest results gitRepos
      | some entries =>
        let (found, toPush) := processEntries dir entries
        traverseLoop fs ignoreSet fuel (toPush.reverse ++ rest)
          (results ++ found) gitRepos

/-- The candidates found by the plain tree walk (before the git
sub-scan results are merged).  The initial stack is the search-path
list reversed, so the first configured root is processed first, as in
the Rust `Vec` seeded in order and popped from the end. -/
def plainTraverse (fs : Fs) (ignorePaths : List (List String))
    (fuel : Nat) (searchPaths : List (List String)) :
    List (List String) :=
  (traverseLoop fs ignorePaths fuel searchPaths.reverse [] []).1

/-- Full `traverse`: plain walk, then the discovered repository roots
chunked with `gitChunkSize` and handed to `scan_git_repo` (the oracle
`gitScan`), each chunk's results appended in join order. -/
def traverse (fs : Fs) (gitScan : List String → List (List String))
    (ignorePaths : List (List String)) (fuel : Nat)
    (searchPaths : List (List String)) : List (List String) :=
  let walk := traverseLoop fs ignorePaths fuel searchPaths.reverse [] []
  let chunks := chunksList (gitChunkSize walk.2.length) walk.2
  walk.1 ++ (chunks.map (fun c => (c.map gitScan).flatten)).flatten

/-- A tiny concrete filesystem for exercising the traversal: one root
`r` holding a `node_modules` directory (an artifact) and an ordinary
`srcd` directory (empty). -/
def demoFs : Fs where
  isDir := fun p =>
    p == ["r"] || p == ["r", "node_modules"] || p == ["r", "srcd"]
  readDir := fun p =>
    if p == ["r"] then
      some [⟨"node_modules", true, false⟩, ⟨"srcd", true, false⟩]
    else if p == ["r", "srcd"] then some []
    else none

/-! ## Registry (`src/registry.rs`) -/

/-- The persisted registry record (`struct Registry`): the managed
path set (`Vec<String>`, insertion order), the optional cached byte
total and the optional last-update-check timestamp. -/
structure Registry where
  paths : List String
  saved_bytes : Option Nat
  last_update_check : Option Int
deriving DecidableEq

/-- `Registry::default()`: empty path list, both options `None`. -/
def Registry.defaultReg : Registry := ⟨[], none, none⟩

/-- `Registry::contains`: linear search by string equality. -/
def Registry.containsPath (r : Registry) (p : String) : Bool :=
  r.paths.any (fun q => q == p)

/-- `Registry::add`: push the path only when not already present. -/
def Registry.add (r : Registry) (p : String) : Registry :=
  if r.containsPath p then r else { r with paths := r.paths ++ [p] }

/-- `Registry::remove`: `retain(|q| q != path)`, reporting whether the
length shrank. -/
def Registry.removePath (r : Registry) (p : String) : Registry × Bool :=
  let newPaths := r.paths.filter (fun q => q ≠ p)
  ({ r with paths := newPaths }, newPaths.length < r.paths.length)

/-- One registry mutation, for stating the closure invariant. -/
inductive RegOp
  | add (p : String)
  | remove (p : String)

/-- Apply one `RegOp`. -/
def applyOp (r : Registry) : RegOp → Registry
  | .add p => r.add p
  | .remove p => (r.removePath p).1

/-- Apply a sequence of `RegOp`s in order. -/
def applyOps (ops : List RegOp) (r : Registry) : Registry :=
  ops.foldl applyOp r

/-- `LockedRegistry::load`, with the backing file's current contents
and the JSON decoder (`serde_json::from_reader`) passed in as values:
an empty file yields the default registry, a decoder failure is logged
and yields the default registry, a decoder success yields its value.
The lock is already held; no branch propagates an error. -/
def LockedRegistry.load (parseJson : String → Except String Registry)
    (contents : String) : Except String Registry :=
  if contents.length = 0 then .ok Registry.defaultReg
  else
    match parseJson contents with
    | .ok r => .ok r
    | .error _ => .ok Registry.defaultReg

/-! ## Reconciliation steps (`src/commands/run.rs`)

The disk and the `tmutil` adapter appear as oracles: `ex p` says
whether path `p` exists on disk, `statusOf ps` is the boolean list the
batch `tmutil::are_excluded` query yields for `ps` (as `run.rs`
consumes it), and `flagOk` is whether the batch `tmutil::add_exclusions`
adapter call returns `Ok`. -/

/-- `run::prune_stale`: iterate over a snapshot of the registered
paths and remove every one that no longer exists, counting removals. -/
def prune_stale (ex : String → Bool) (reg : Registry) : Registry × Nat :=
  reg.paths.foldl
    (fun acc entry =>
      if ex entry then acc else ((acc.1.removePath entry).1, acc.2 + 1))
    (reg, 0)

/-- `run::reapply_lost`: zip the registered paths with their queried
exclusion status, collect the unflagged ones (`lost`), and reapply
them with one batch adapter call; the registry itself is read-only
here (`&Registry`).  Returns the registry (unchanged), the `lost`
batch that was handed to the adapter, and the reported count (`0` on
empty input, empty batch, or batch failure). -/
def reapply_lost (reg : Registry) (statusOf : List String → List Bool)
    (flagOk : Bool) : Registry × List String × Nat :=
  let entries := reg.paths
  if entries = [] then (reg, [], 0)
  else
    let status := statusOf entries
    let lost := ((entries.zip status).filter (fun pe => !pe.2)).map Prod.fst
    if lost = [] then (reg, [], 0)
    else if flagOk then (reg, lost, lost.length)
    else (reg, lost, 0)

/-- First pass of `run::reconcile`: candidates already flagged are
added to the registry directly; the unflagged ones are collected for
the batch call.  Folds over the zipped (candidate, status) pairs,
mirroring the `for` loop. -/
def reconcilePass1 (pairs : List (String × Bool)) (reg : Registry) :
    Registry × List String :=
  pairs.foldl
    (fun acc pe =>
      if pe.2 then (acc.1.add pe.1, acc.2 ++ [pe.1]) else acc)
    (reg, [])

/-- `run::reconcile`: filter out already-registered candidates, query
their exclusion status, add the already-flagged ones, and batch-flag
the rest — on adapter success they are all added, on failure none of
them is (the failure is logged and the run continues).  Returns the
updated registry and the `added` list. -/
def reconcile (reg : Registry) (candidates : List String)
    (statusOf : List String → List Bool) (flagOk : Bool) :
    Registry × List String :=
  let newCands := candidates.filter (fun p => !reg.containsPath p)
  if newCands = [] then (reg, [])
  else
    let pairs := newCands.zip (statusOf newCands)
    let pass1 := reconcilePass1 pairs reg
    let toExclude := (pairs.filter (fun pe => !pe.2)).map Prod.fst
    if toExclude = [] then pass1
    else if flagOk then
      (toExclude.foldl (fun r p => r.add p) pass1.1, pass1.2 ++ toExclude)
    else pass1

/-- The registry pipeline of `run::execute` for one reconciliation
run: prune stale entries, reapply lost exclusions (read-only on the
registry), reconcile the scan candidates, then refresh the cached
savings total (`disksize::calculate_total_size` is the oracle
`sizeOf`) when membership changed. -/
def execSteps (ex : String → Bool) (statusOf : List String → List Bool)
    (reapplyOk flagOk : Bool) (sizeOf : List String → Nat)
    (candidates : List String) (reg : Registry) : Registry :=
  let pruned := prune_stale ex reg
  let reapplied := reapply_lost pruned.1 statusOf reapplyOk
  let reconciled := reconcile reapplied.1 candidates statusOf flagOk
  if pruned.2 > 0 ∨ reconciled.2 ≠ [] then
    let total := sizeOf reconciled.1.paths
    { reconciled.1 with saved_bytes := if total > 0 then some total else none }
  else reconciled.1

/-! ## Batch exclusion-status query (`src/tmutil.rs`) -/

/-- Rust's `str::lines()` over the character list: a line ends at
`\n` or `\r\n`, the final line ending is optional, and the empty
string has no lines. -/
def rustLinesList : List Char → List (List Char)
  | [] => []
  | '\r' :: '\n' :: cs => [] :: rustLinesList cs
  | '\n' :: cs => [] :: rustLinesList cs
  | c :: cs =>
    match rustLinesList cs with
    | [] => [[c]]
    | h :: t => (c :: h) :: t

/-- Rust's `str::lines()` on a string. -/
def rustLines (s : String) : List String :=
  (rustLinesList s.data).map String.mk

/-- `tmutil::parse_are_excluded`: one boolean per non-empty output
line, `true` iff the line starts with `"[Excluded]"`. -/
def parse_are_excluded (output : String) : List Bool :=
  ((rustLines output).filter (fun l => l ≠ "")).map
    (fun l => strStartsWith l "[Excluded]")

/-- `tmutil::are_excluded`, with the subprocess modelled as
`tool : Option String` (`none` = the `tmutil` invocation itself
failed, `some out` = its stdout).  An empty path list succeeds with
`[]` before the subprocess is ever constructed — hence the result
then ignores `tool` entirely, even `none`.  A parsed result count
different from the input count is an error, not a truncation. -/
def are_excluded (paths : List String) (tool : Option String) :
    Except String (List Bool) :=
  if paths = [] then .ok []
  else
    match tool with
    | none => .error "failed to run tmutil"
    | some out =>
      let results := parse_are_excluded out
      if results.length ≠ paths.length then
        .error ("tmutil returned " ++ toString results.length ++
          " results for " ++ toString paths.length ++ " paths")
      else .ok results

/-! ## Helper lemmas -/

theorem containsPath_iff (r : Registry) (p : String) :
    r.containsPath p = true ↔ p ∈ r.paths := by
  simp [Registry.containsPath]

theorem add_paths_mem (r : Registry) (q p : String) :
    p ∈ (r.add q).paths ↔ p ∈ r.paths ∨ p = q := by
  unfold Registry.add
  by_cases h : r.containsPath q = true
  · simp only [h, if_true]
    refine ⟨Or.inl, fun hc => hc.elim id fun hpq => ?_⟩
    exact hpq ▸ (containsPath_iff r q).mp h
  · simp only [Bool.not_eq_true] at h
    simp [h, List.mem_append]

theorem add_nodup (r : Registry) (q : String) (h : r.paths.Nodup) :
    (r.add q).paths.Nodup := by
  unfold Registry.add
  by_cases hc : r.containsPath q = true
  · simp [hc, h]
  · simp only [Bool.not_eq_true] at hc
    simp only [hc, Bool.false_eq_true, if_false]
    simp only [List.nodup_append, List.nodup_singleton, h, true_and]
    intro a ha hb
    rw [List.mem_singleton] at hb
    exact absurd ((containsPath_iff r q).mpr (hb ▸ ha)) (by simp [hc])

theorem removePath_paths (r : Registry) (p : String) :
    ((r.removePath p).1).paths = r.paths.filter (fun q => q ≠ p) := rfl

theorem add_of_contains (r : Registry) (p : String)
    (h : r.containsPath p = true) : r.add p = r := by
  unfold Registry.add
  simp [h]

/-- **C7** — The registry never contains a path twice: `add` inserts
only when absent (so a second `add` of the same path is the identity),
`remove` preserves the no-duplicates property, and every sequence of
`add`/`remove` operations starting from the default (empty) registry
keeps the path list duplicate-free. -/
theorem c7_registry_no_duplicates :
    (∀ ops : List RegOp, (applyOps ops Registry.defaultReg).paths.Nodup) ∧
    (∀ (r : Registry) (p : String), (r.add p).add p = r.add p) ∧
    (∀ (r : Registry) (p : String), r.paths.Nodup →
      ((r.removePath p).1).paths.Nodup) := by
  have hop : ∀ (r : Registry) (op : RegOp),
      r.paths.Nodup → (applyOp r op).paths.Nodup := by
    intro r op h
    cases op with
    | add p => exact add_nodup r p h
    | remove p => exact (removePath_paths r p) ▸ h.filter _
  refine ⟨?_, ?_, ?_⟩
  · intro ops
    suffices hgen : ∀ (ops : List RegOp) (r : Registry), r.paths.Nodup →
        (applyOps ops r).paths.Nodup by
      exact hgen ops Registry.defaultReg List.nodup_nil
    intro ops
    induction ops with
    | nil => intro r h; exact h
    | cons op rest ih =>
      intro r h
      exact ih (applyOp r op) (hop r op h)
  · intro r p
    have h2 : (r.add p).containsPath p = true :=
      (containsPath_iff _ p).mpr ((add_paths_mem r p p).mpr (Or.inr rfl))
    exact add_of_contains (r.add p) p h2
  · intro r p h
    exact (removePath_paths r p) ▸ h.filter _

/-- Witness for C7 at concrete inputs. -/
theorem c7_registry_no_duplicates_witness :
    (applyOps [RegOp.add "a", RegOp.add "a", RegOp.remove "b"]
      Registry.defaultReg).paths.Nodup ∧
    ((Registry.defaultReg.add "a").add "a" = Registry.defaultReg.add "a") ∧
    ((⟨["a", "b"], none, none⟩ : Registry).removePath "a").1.paths.Nodup :=
  ⟨c7_registry_no_duplicates.1 _,
   c7_registry_no_duplicates.2.1 _ _,
   c7_registry_no_duplicates.2.2 ⟨["a", "b"], none, none⟩ "a" (by decide)⟩

theorem prune_fold_paths (ex : String → Bool) (l : List String) :
    ∀ (r : Registry) (c : Nat),
      ((l.foldl (fun acc entry => if ex entry then acc
          else ((acc.1.removePath entry).1, acc.2 + 1)) (r, c)).1).paths
      = r.paths.filter (fun p => ex p || !l.contains p) := by
  induction l with
  | nil => intro r c; simp
  | cons e rest ih =>
    intro r c
    rw [List.foldl_cons]
    by_cases he : ex e
    · simp only [he, if_true]
      rw [ih r c]
      apply List.filter_congr
      intro p _
      by_cases hpe : p = e
      · subst hpe; simp [he]
      · simp [List.contains_cons, hpe]
    · rw [Bool.not_eq_true] at he
      rw [if_neg (by simp [he])]
      rw [ih]
      rw [removePath_paths, List.filter_filter]
      apply List.filter_congr
      intro p _
      by_cases hpe : p = e
      · subst hpe; simp [he, List.contains_cons]
      · simp [List.contains_cons, hpe]

/-- **C6** — Stale pruning removes exactly the registered paths that
no longer exist: the surviving path list is the filter of the old one
by disk existence (so every survivor exists), and a one-run pipeline
over a registry holding a single nonexistent path with zero scan
candidates leaves the registry empty. -/
theorem c6_prune_stale_exact :
    (∀ (ex : String → Bool) (reg : Registry),
      ((prune_stale ex reg).1).paths = reg.paths.filter ex) ∧
    (∀ (ex : String → Bool) (statusOf : List String → List Bool)
        (reapplyOk flagOk : Bool) (szOf : List String → Nat) (p : String),
      ex p = false →
      (execSteps ex statusOf reapplyOk flagOk szOf [] ⟨[p], none, none⟩).paths
        = []) := by
  constructor
  · intro ex reg
    unfold prune_stale
    rw [prune_fold_paths]
    apply List.filter_congr
    intro p hp
    have hc : reg.paths.contains p = true := by
      simpa using hp
    rw [hc]
    simp
  · intro ex statusOf reapplyOk flagOk szOf p hp
    simp [execSteps, prune_stale, reapply_lost, reconcile,
      Registry.removePath, hp]

/-- Witness for C6: a registry holding one path that the disk oracle
reports missing is empty after the run pipeline. -/
theorem c6_prune_stale_exact_witness :
    ((prune_stale (fun _ => false) ⟨["a"], none, none⟩).1).paths
      = ["a"].filter (fun _ => false) ∧
    (execSteps (fun _ => false) (fun _ => []) true true (fun _ => 0) []
      ⟨["a"], none, none⟩).paths = [] :=
  ⟨c6_prune_stale_exact.1 (fun _ => false) ⟨["a"], none, none⟩,
   c6_prune_stale_exact.2 (fun _ => false) (fun _ => []) true true
     (fun _ => 0) "a" rfl⟩

/-- **C8** — Once the lock is held, loading the registry from the
backing file's contents never propagates an error: it always yields
`ok`; an empty file yields the default registry; and whenever the JSON
decoder fails on the contents, the result is the default registry
(empty path set, no cached byte total, no last-check timestamp). -/
theorem c8_load_never_fails
    (parseJson : String → Except String Registry) (contents : String) :
    (∃ r, LockedRegistry.load parseJson contents = .ok r) ∧
    LockedRegistry.load parseJson "" = .ok Registry.defaultReg ∧
    (∀ e, parseJson contents = .error e →
      LockedRegistry.load parseJson contents = .ok Registry.defaultReg) ∧
    Registry.defaultReg.paths = [] ∧
    Registry.defaultReg.saved_bytes = none ∧
    Registry.defaultReg.last_update_check = none := by
  refine ⟨?_, ?_, ?_, rfl, rfl, rfl⟩
  · unfold LockedRegistry.load
    by_cases h : contents.length = 0
    · exact ⟨Registry.defaultReg, by simp [h]⟩
    · simp only [h, if_false]
      cases hp : parseJson contents with
      | ok r => exact ⟨r, rfl⟩
      | error e => exact ⟨Registry.defaultReg, rfl⟩
  · rfl
  · intro e he
    unfold LockedRegistry.load
    by_cases h : contents.length = 0
    · simp [h]
    · simp [h, he]

theorem mem_map_fst_filter_true (pairs : List (String × Bool)) (p : String) :
    p ∈ ((pairs.filter (fun pe => pe.2)).map Prod.fst) ↔ (p, true) ∈ pairs := by
  rw [List.mem_map]
  constructor
  · rintro ⟨⟨a, b⟩, hpe, rfl⟩
    rw [List.mem_filter] at hpe
    have hb : b = true := hpe.2
    exact hb ▸ hpe.1
  · intro h
    exact ⟨(p, true), List.mem_filter.mpr ⟨h, rfl⟩, rfl⟩

theorem mem_map_fst_filter_false (pairs : List (String × Bool)) (p : String) :
    p ∈ ((pairs.filter (fun pe => !pe.2)).map Prod.fst) ↔ (p, false) ∈ pairs := by
  rw [List.mem_map]
  constructor
  · rintro ⟨⟨a, b⟩, hpe, rfl⟩
    rw [List.mem_filter] at hpe
    have hb : b = false := by
      have := hpe.2
      simpa using this
    exact hb ▸ hpe.1
  · intro h
    exact ⟨(p, false), List.mem_filter.mpr ⟨h, by simp⟩, rfl⟩

/-- **C5** — Every registered path whose external exclusion flag is
observed cleared is put into the `lost` batch that `reapply_lost`
hands to the single batch adapter call, and the registry component is
returned unchanged whether the batch call succeeds or fails:
reapplication never removes (or adds) a registry entry. -/
theorem c5_reapply_lost_preserves (reg : Registry)
    (statusOf : List String → List Bool) (flagOk : Bool) (p : String)
    (h : (p, false) ∈ reg.paths.zip (statusOf reg.paths)) :
    p ∈ (reapply_lost reg statusOf flagOk).2.1 ∧
    (reapply_lost reg statusOf flagOk).1 = reg := by
  have hne : reg.paths ≠ [] := by
    intro h0
    rw [h0] at h
    simp at h
  have hmem : p ∈ ((reg.paths.zip (statusOf reg.paths)).filter
      (fun pe => !pe.2)).map Prod.fst :=
    (mem_map_fst_filter_false _ p).mpr h
  have hlne : ((reg.paths.zip (statusOf reg.paths)).filter
      (fun pe => !pe.2)).map Prod.fst ≠ [] := by
    intro h0
    rw [h0] at hmem
    simp at hmem
  simp only [reapply_lost]
  rw [if_neg hne, if_neg hlne]
  cases flagOk <;> simp [hmem]

/-- Witness for C5 at a concrete one-path registry whose flag the
status oracle reports cleared. -/
theorem c5_reapply_lost_preserves_witness :
    "a" ∈ (reapply_lost ⟨["a"], none, none⟩ (fun _ => [false]) false).2.1 ∧
    (reapply_lost ⟨["a"], none, none⟩ (fun _ => [false]) false).1
      = ⟨["a"], none, none⟩ :=
  c5_reapply_lost_preserves ⟨["a"], none, none⟩ (fun _ => [false]) false "a"
    (by decide)

theorem pass1_fold_mem (p : String) :
    ∀ (pairs : List (String × Bool)) (st : Registry × List String),
      p ∈ ((pairs.foldl (fun acc pe =>
          if pe.2 then (acc.1.add pe.1, acc.2 ++ [pe.1]) else acc) st).1).paths
        ↔ p ∈ st.1.paths ∨ (p, true) ∈ pairs := by
  intro pairs
  induction pairs with
  | nil => intro st; simp
  | cons pe rest ih =>
    intro st
    rw [List.foldl_cons]
    obtain ⟨a, b⟩ := pe
    cases b with
    | true =>
      rw [if_pos rfl]
      rw [ih]
      simp only [add_paths_mem, List.mem_cons, Prod.mk.injEq]
      constructor
      · rintro (⟨hm | hq⟩ | hr)
        · exact Or.inl hm
        · exact Or.inr (Or.inl ⟨hq, trivial⟩)
        · exact Or.inr (Or.inr hr)
      · rintro (hm | ⟨hq, -⟩ | hr)
        · exact Or.inl (Or.inl hm)
        · exact Or.inl (Or.inr hq)
        · exact Or.inr hr
    | false =>
      rw [if_neg (by simp)]
      rw [ih]
      simp

theorem pass1_fold_added :
    ∀ (pairs : List (String × Bool)) (st : Registry × List String),
      (pairs.foldl (fun acc pe =>
          if pe.2 then (acc.1.add pe.1, acc.2 ++ [pe.1]) else acc) st).2
        = st.2 ++ (pairs.filter (fun pe => pe.2)).map Prod.fst := by
  intro pairs
  induction pairs with
  | nil => intro st; simp
  | cons pe rest ih =>
    intro st
    rw [List.foldl_cons]
    obtain ⟨a, b⟩ := pe
    cases b with
    | true =>
      rw [if_pos rfl, ih]
      simp
    | false =>
      rw [if_neg (by simp), ih]
      simp

theorem foldl_add_mem (p : String) :
    ∀ (l : List String) (r : Registry),
      p ∈ ((l.foldl (fun r q => r.add q) r).paths) ↔ p ∈ r.paths ∨ p ∈ l := by
  intro l
  induction l with
  | nil => intro r; simp
  | cons q rest ih =>
    intro r
    rw [List.foldl_cons, ih]
    simp only [add_paths_mem, List.mem_cons]
    tauto

/-- **C4** — Fail-closed classification of new candidates: for a scan
candidate that is not yet registered and whose queried exclusion
status is `false`, a failing batch adapter call leaves it out of the
registry and out of the `added` list (and `reconcile` still returns,
continuing the run), while a succeeding batch call registers it and
reports it added. -/
theorem c4_reconcile_fail_closed (reg : Registry) (candidates : List String)
    (statusOf : List String → List Bool) (p : String)
    (hfalse : (p, false) ∈ (candidates.filter (fun q => !reg.containsPath q)).zip
      (statusOf (candidates.filter (fun q => !reg.containsPath q))))
    (htrue : (p, true) ∉ (candidates.filter (fun q => !reg.containsPath q)).zip
      (statusOf (candidates.filter (fun q => !reg.containsPath q)))) :
    ((reconcile reg candidates statusOf false).1.containsPath p = false ∧
      p ∉ (reconcile reg candidates statusOf false).2) ∧
    ((reconcile reg candidates statusOf true).1.containsPath p = true ∧
      p ∈ (reconcile reg candidates statusOf true).2) := by
  have hpnc : p ∈ candidates.filter (fun q => !reg.containsPath q) :=
    (List.of_mem_zip hfalse).1
  have hpreg : reg.containsPath p = false := by
    have := (List.mem_filter.mp hpnc).2
    simpa using this
  have hpmem : p ∉ reg.paths := fun hm =>
    absurd ((containsPath_iff reg p).mpr hm) (by simp [hpreg])
  have hne : candidates.filter (fun q => !reg.containsPath q) ≠ [] := by
    intro h0
    rw [h0] at hpnc
    simp at hpnc
  have hto : p ∈ (((candidates.filter (fun q => !reg.containsPath q)).zip
      (statusOf (candidates.filter (fun q => !reg.containsPath q)))).filter
        (fun pe => !pe.2)).map Prod.fst :=
    (mem_map_fst_filter_false _ p).mpr hfalse
  have htone : (((candidates.filter (fun q => !reg.containsPath q)).zip
      (statusOf (candidates.filter (fun q => !reg.containsPath q)))).filter
        (fun pe => !pe.2)).map Prod.fst ≠ [] := by
    intro h0
    rw [h0] at hto
    simp at hto
  constructor
  · constructor
    · simp only [reconcile]
      rw [if_neg hne, if_neg htone, if_neg (by simp)]
      have hnm : p ∉ ((reconcilePass1 ((candidates.filter
          (fun q => !reg.containsPath q)).zip (statusOf (candidates.filter
            (fun q => !reg.containsPath q)))) reg).1).paths := by
        rw [reconcilePass1, pass1_fold_mem]
        rintro (hm | ht)
        · exact hpmem hm
        · exact htrue ht
      rw [← Bool.not_eq_true]
      intro hc
      exact hnm ((containsPath_iff _ p).mp hc)
    · simp only [reconcile]
      rw [if_neg hne, if_neg htone, if_neg (by simp)]
      rw [reconcilePass1, pass1_fold_added]
      simp only [List.nil_append, mem_map_fst_filter_true]
      exact htrue
  · constructor
    · simp only [reconcile]
      rw [if_neg hne, if_neg htone, if_pos trivial]
      apply (containsPath_iff _ p).mpr
      rw [foldl_add_mem]
      exact Or.inr hto
    · simp only [reconcile]
      rw [if_neg hne, if_neg htone, if_pos trivial]
      exact List.mem_append.mpr (Or.inr hto)

/-- Witness for C4 at one unregistered, unflagged candidate. -/
theorem c4_reconcile_fail_closed_witness :
    ((reconcile ⟨[], none, none⟩ ["a"] (fun _ => [false]) false).1.containsPath
        "a" = false ∧
      "a" ∉ (reconcile ⟨[], none, none⟩ ["a"] (fun _ => [false]) false).2) ∧
    ((reconcile ⟨[], none, none⟩ ["a"] (fun _ => [false]) true).1.containsPath
        "a" = true ∧
      "a" ∈ (reconcile ⟨[], none, none⟩ ["a"] (fun _ => [false]) true).2) :=
  c4_reconcile_fail_closed ⟨[], none, none⟩ ["a"] (fun _ => [false]) "a"
    (by decide) (by decide)

/-- Witness for C8: a decoder that always fails still loads as the
default registry. -/
theorem c8_load_never_fails_witness :
    (∃ r, LockedRegistry.load (fun _ => .error "bad") "x" = .ok r) ∧
    LockedRegistry.load (fun _ => .error "bad") "" = .ok Registry.defaultReg ∧
    LockedRegistry.load (fun _ => .error "bad") "x" = .ok Registry.defaultReg :=
  ⟨(c8_load_never_fails (fun _ => .error "bad") "x").1,
   (c8_load_never_fails (fun _ => .error "bad") "x").2.1,
   (c8_load_never_fails (fun _ => .error "bad") "x").2.2.1 "bad" rfl⟩

theorem are_excluded_nil (tool : Option String) :
    are_excluded [] tool = .ok [] := by
  unfold are_excluded
  rw [if_pos rfl]

theorem are_excluded_some (paths : List String) (out : String)
    (h : paths ≠ []) :
    are_excluded paths (some out) =
      if (parse_are_excluded out).length ≠ paths.length then
        .error ("tmutil returned " ++ toString (parse_are_excluded out).length
          ++ " results for " ++ toString paths.length ++ " paths")
      else .ok (parse_are_excluded out) := by
  unfold are_excluded
  rw [if_neg h]

/-- **C10** — The batch exclusion-status query: on success the result
has exactly one boolean per input path, the `i`-th being whether the
`i`-th non-empty output line starts with `"[Excluded]"`; a count
mismatch between parsed results and inputs is an error, not a
truncated result; and the empty input list succeeds with `[]` even
when the external tool cannot run at all (it is never invoked). -/
theorem c10_are_excluded_batch :
    (∀ (paths : List String) (out : String) (res : List Bool),
      are_excluded paths (some out) = .ok res →
      res.length = paths.length ∧
      ∀ (i : Nat) (hi : i < res.length)
        (hl : i < ((rustLines out).filter (fun l => l ≠ "")).length),
        res.get ⟨i, hi⟩
          = strStartsWith (((rustLines out).filter (fun l => l ≠ "")).get
              ⟨i, hl⟩) "[Excluded]") ∧
    (∀ (paths : List String) (out : String), paths ≠ [] →
      (parse_are_excluded out).length ≠ paths.length →
      ∃ e, are_excluded paths (some out) = .error e) ∧
    (∀ tool, are_excluded [] tool = .ok []) := by
  refine ⟨?_, ?_, ?_⟩
  · intro paths out res h
    by_cases hp : paths = []
    · subst hp
      rw [are_excluded_nil] at h
      have hres : res = [] := by
        cases h
        rfl
      subst hres
      exact ⟨rfl, fun i hi _ => absurd hi (by simp)⟩
    · rw [are_excluded_some paths out hp] at h
      by_cases hlen : (parse_are_excluded out).length ≠ paths.length
      · rw [if_pos hlen] at h
        cases h
      · rw [if_neg hlen] at h
        have hres : res = parse_are_excluded out := by
          cases h
          rfl
        push_neg at hlen
        subst hres
        refine ⟨hlen, ?_⟩
        intro i hi hl
        rw [List.get_eq_getElem, List.get_eq_getElem]
        exact List.getElem_map _
  · intro paths out hne hmis
    rw [are_excluded_some paths out hne, if_pos hmis]
    exact ⟨_, rfl⟩
  · exact are_excluded_nil

/-- Witness for C10 at concrete inputs: a one-path success, a
two-path/one-line mismatch, and the empty list with a failed tool. -/
theorem c10_are_excluded_batch_witness :
    (([true] : List Bool).length = (["p"] : List String).length) ∧
    (∃ e, are_excluded ["a", "b"] (some "[Excluded] /a") = .error e) ∧
    are_excluded [] none = .ok [] :=
  ⟨(c10_are_excluded_batch.1 ["p"] "[Excluded] /p" [true] (by
      rw [are_excluded_some _ _ (by simp)]
      have hp : parse_are_excluded "[Excluded] /p" = [true] := by decide
      rw [hp]
      simp)).1,
   c10_are_excluded_batch.2.1 ["a", "b"] "[Excluded] /a" (by simp)
     (by decide),
   c10_are_excluded_batch.2.2 none⟩

theorem chunksList_length {α : Type} (k : Nat) (hk : 0 < k) :
    ∀ l : List α, (chunksList k l).length = (l.length + k - 1) / k := by
  intro l
  generalize hn : l.length = n
  induction n using Nat.strong_induction_on generalizing l with
  | _ n ih =>
    cases l with
    | nil =>
      rw [List.length_nil] at hn
      subst hn
      rw [chunksList]
      rw [Nat.div_eq_of_lt (by omega)]
      rfl
    | cons x xs =>
      have hxn : xs.length + 1 = n := by rw [← hn]; rfl
      rw [chunksList, dif_neg (by omega : ¬ k = 0)]
      have hd : ((x :: xs).drop k).length = n - k := by
        rw [List.length_drop]
        omega
      have ihx := ih (n - k) (by omega) ((x :: xs).drop k) hd
      rw [List.length_cons, ihx]
      rcases le_or_lt n k with hle | hlt
      · have h0 : n - k = 0 := by omega
        rw [h0, Nat.zero_add, Nat.div_eq_of_lt (by omega)]
        have hsplit : n + k - 1 = (n - 1) + k := by omega
        rw [hsplit, Nat.add_div_right _ hk, Nat.div_eq_of_lt (by omega)]
      · have h1 : n - k + k - 1 = n - 1 := by omega
        have hsplit : n + k - 1 = (n - 1) + k := by omega
        rw [h1, hsplit, Nat.add_div_right _ hk]

/-- **C3 counterexample** — With 9 discovered repository roots the
chunk size is `max(9/8, 1) = 1` and `traverse` spawns 9 worker
threads, refuting the at-most-8 bound as stated. -/
theorem c3_nine_repos_nine_workers :
    gitChunkCount 9 = 9 ∧ ¬ gitChunkCount 9 ≤ 8 ∧
    (chunksList (gitChunkSize 9)
      (List.replicate 9 (["r"] : List String))).length = 9 := by
  have hgs : gitChunkSize 9 = 1 := by decide
  have hk : 0 < gitChunkSize 9 := by omega
  have h1 : gitChunkCount 9 = 9 := by
    unfold gitChunkCount
    rw [chunksList_length _ hk, List.length_range, hgs]
  have h2 : (chunksList (gitChunkSize 9)
      (List.replicate 9 (["r"] : List String))).length = 9 := by
    rw [chunksList_length _ hk, List.length_replicate, hgs]
  exact ⟨h1, by omega, h2⟩

/-- **C3 (amended)** — The scanner partitions the `n` discovered
repository roots into `ceil(n / max(n/8, 1))` chunks, one worker
thread per chunk; this count never exceeds 15 (not 8: it is 9–15 for
9–15 roots, the bound 15 attained at 15), and it depends only on the
number of roots (`gitChunkCount`). -/
theorem c3_chunk_count_at_most_15 (repos : List (List String)) :
    (chunksList (gitChunkSize repos.length) repos).length ≤ 15 ∧
    (chunksList (gitChunkSize repos.length) repos).length
      = gitChunkCount repos.length := by
  have hk : 0 < gitChunkSize repos.length := le_max_right _ 1
  have h1 := chunksList_length (gitChunkSize repos.length) hk repos
  have h2 := chunksList_length (gitChunkSize repos.length) hk
    (List.range repos.length)
  rw [List.length_range] at h2
  constructor
  · rw [h1]
    by_cases hn : repos.length ≤ 15
    · have hgs : gitChunkSize repos.length = 1 := by
        unfold gitChunkSize
        omega
      rw [hgs, Nat.div_one]
      omega
    · push_neg at hn
      have hq : gitChunkSize repos.length = repos.length / 8 := by
        unfold gitChunkSize
        omega
      have hqpos : 0 < repos.length / 8 := by omega
      rw [hq]
      apply Nat.lt_succ_iff.mp
      rw [Nat.div_lt_iff_lt_mul hqpos]
      omega
  · rw [h1]
    show _ = (chunksList (gitChunkSize repos.length)
      (List.range repos.length)).length
    rw [h2]

theorem firstBuiltinSeg_none_iff (comps : List String) :
    firstBuiltinSeg comps = none ↔ ∀ c ∈ comps, is_builtin c = false := by
  induction comps with
  | nil => simp [firstBuiltinSeg]
  | cons c rest ih =>
    rw [firstBuiltinSeg]
    by_cases hc : is_builtin c
    · simp [hc]
    · rw [if_neg hc]
      rw [Bool.not_eq_true] at hc
      cases hrec : firstBuiltinSeg rest with
      | none =>
        apply iff_of_true rfl
        intro d hd
        rcases List.mem_cons.mp hd with rfl | hd'
        · exact hc
        · exact (ih.mp hrec) d hd'
      | some pre =>
        apply iff_of_false (by simp)
        intro hall
        have hres : firstBuiltinSeg rest = none :=
          ih.mpr fun d hd => hall d (List.mem_cons_of_mem _ hd)
        rw [hrec] at hres
        cases hres

theorem firstBuiltinSeg_some_shape (comps pre : List String)
    (h : firstBuiltinSeg comps = some pre) :
    ∃ q b, pre = q ++ [b] ∧ is_builtin b = true ∧
      (∀ c ∈ q, is_builtin c = false) ∧ ∃ tail, comps = pre ++ tail := by
  induction comps generalizing pre with
  | nil => cases h
  | cons c rest ih =>
    rw [firstBuiltinSeg] at h
    by_cases hc : is_builtin c
    · rw [if_pos hc] at h
      cases h
      exact ⟨[], c, rfl, hc, by simp, rest, rfl⟩
    · rw [if_neg hc] at h
      rw [Bool.not_eq_true] at hc
      cases hrec : firstBuiltinSeg rest with
      | none =>
        rw [hrec] at h
        cases h
      | some pre' =>
        rw [hrec] at h
        cases h
        obtain ⟨q, b, hpre, hb, hq, tail, htail⟩ := ih pre' hrec
        refine ⟨c :: q, b, by rw [hpre]; rfl, hb, ?_, tail, by
          rw [htail]; rfl⟩
        intro d hd
        rcases List.mem_cons.mp hd with rfl | hd'
        · exact hc
        · exact hq d hd'

theorem parse_fold_mem (repo : List String) (p : List String) :
    ∀ (lines : List String) (acc : List (List String)),
      p ∈ lines.foldl
        (fun acc line =>
          match firstBuiltinSeg (pathComponents line) with
          | some pre =>
            let q := repo ++ pre
            if acc.contains q then acc else acc ++ [q]
          | none => acc) acc ↔
      p ∈ acc ∨ ∃ line ∈ lines, ∃ pre,
        firstBuiltinSeg (pathComponents line) = some pre ∧ p = repo ++ pre := by
  intro lines
  induction lines with
  | nil => intro acc; simp
  | cons l rest ih =>
    intro acc
    rw [List.foldl_cons]
    cases hseg : firstBuiltinSeg (pathComponents l) with
    | none =>
      simp only [hseg]
      rw [ih]
      constructor
      · rintro (ha | ⟨line, hl, pre, hs, hp⟩)
        · exact Or.inl ha
        · exact Or.inr ⟨line, List.mem_cons_of_mem _ hl, pre, hs, hp⟩
      · rintro (ha | ⟨line, hl, pre, hs, hp⟩)
        · exact Or.inl ha
        · rcases List.mem_cons.mp hl with rfl | hl'
          · rw [hseg] at hs
            cases hs
          · exact Or.inr ⟨line, hl', pre, hs, hp⟩
    | some pre0 =>
      simp only [hseg]
      rw [ih]
      have hmm : p ∈ (if acc.contains (repo ++ pre0) then acc
          else acc ++ [repo ++ pre0]) ↔ p ∈ acc ∨ p = repo ++ pre0 := by
        by_cases hc : acc.contains (repo ++ pre0)
        · rw [if_pos hc]
          refine ⟨Or.inl, ?_⟩
          rintro (ha | rfl)
          · exact ha
          · simpa using hc
        · rw [if_neg hc]
          simp
      rw [hmm]
      constructor
      · rintro ((ha | rfl) | ⟨line, hl, pre, hs, hp⟩)
        · exact Or.inl ha
        · exact Or.inr ⟨l, List.mem_cons_self _ _, pre0, hseg, rfl⟩
        · exact Or.inr ⟨line, List.mem_cons_of_mem _ hl, pre, hs, hp⟩
      · rintro (ha | ⟨line, hl, pre, hs, hp⟩)
        · exact Or.inl (Or.inl ha)
        · rcases List.mem_cons.mp hl with rfl | hl'
          · rw [hseg] at hs
            cases hs
            exact Or.inl (Or.inr hp)
          · exact Or.inr ⟨line, hl', pre, hs, hp⟩

theorem parse_git_ignored_mem (repo : List String) (output : String)
    (p : List String) :
    p ∈ parse_git_ignored repo output ↔
      ∃ line ∈ gitEntries output, ∃ pre,
        firstBuiltinSeg (pathComponents line) = some pre ∧ p = repo ++ pre := by
  rw [parse_git_ignored, parse_fold_mem]
  simp

theorem parse_fold_nodup (repo : List String) :
    ∀ (lines : List String) (acc : List (List String)), acc.Nodup →
      (lines.foldl
        (fun acc line =>
          match firstBuiltinSeg (pathComponents line) with
          | some pre =>
            let q := repo ++ pre
            if acc.contains q then acc else acc ++ [q]
          | none => acc) acc).Nodup := by
  intro lines
  induction lines with
  | nil => intro acc h; exact h
  | cons l rest ih =>
    intro acc h
    rw [List.foldl_cons]
    cases hseg : firstBuiltinSeg (pathComponents l) with
    | none =>
      simp only [hseg]
      exact ih acc h
    | some pre0 =>
      simp only [hseg]
      apply ih
      by_cases hc : acc.contains (repo ++ pre0)
      · rw [if_pos hc]
        exact h
      · rw [if_neg hc]
        simp only [List.nodup_append, List.nodup_singleton, h, true_and]
        intro a ha hb
        rw [List.mem_singleton] at hb
        subst hb
        exact hc (by simpa using ha)

/-- **C1 counterexample** — An ignored-and-untracked directory entry
(`logs/`, trailing separator) whose components are all outside the
builtin artifact name set yields no candidate: the git sub-scan does
require a component to match the static name list. -/
theorem c1_nonbuiltin_entry_yields_nothing :
    parse_git_ignored ["/repo"] "logs/\x00" = [] ∧
    is_builtin "logs" = false := by
  constructor
  · decide
  · decide

/-- **C1 (amended)** — The git sub-scan reports a candidate for an
ignored entry iff some path component of the entry is in the builtin
artifact name set; the candidate is the repository-resolved entry
prefix that ends at the first builtin component (so builtin-named
artifact directories are found at arbitrary depth, but non-builtin
ignored directories are not reported). -/
theorem c1_git_subscan_requires_builtin (repo : List String)
    (output : String) (p : List String) :
    (p ∈ parse_git_ignored repo output ↔
      ∃ line ∈ gitEntries output, ∃ pre,
        firstBuiltinSeg (pathComponents line) = some pre ∧ p = repo ++ pre) ∧
    (∀ comps, firstBuiltinSeg comps = none ↔
      ∀ c ∈ comps, is_builtin c = false) ∧
    (∀ comps pre, firstBuiltinSeg comps = some pre →
      ∃ q b, pre = q ++ [b] ∧ is_builtin b = true ∧
        (∀ c ∈ q, is_builtin c = false) ∧ ∃ tail, comps = pre ++ tail) :=
  ⟨parse_git_ignored_mem repo output p,
   firstBuiltinSeg_none_iff,
   firstBuiltinSeg_some_shape⟩

/-- Witness for C1 (amended) at a concrete nested entry. -/
theorem c1_git_subscan_requires_builtin_witness :
    ["/r", "a", "node_modules"] ∈
      parse_git_ignored ["/r"] "a/node_modules/x.js" ∧
    (∃ q b, (["a", "node_modules"] : List String) = q ++ [b] ∧
      is_builtin b = true ∧ (∀ c ∈ q, is_builtin c = false) ∧
      ∃ tail, (["a", "node_modules", "x.js"] : List String)
        = ["a", "node_modules"] ++ tail) :=
  ⟨(c1_git_subscan_requires_builtin ["/r"] "a/node_modules/x.js"
      ["/r", "a", "node_modules"]).1.mpr
    ⟨"a/node_modules/x.js", by decide, ["a", "node_modules"], by decide, rfl⟩,
   (c1_git_subscan_requires_builtin ["/r"] "a/node_modules/x.js"
      ["/r", "a", "node_modules"]).2.2 ["a", "node_modules", "x.js"]
     ["a", "node_modules"] (by decide)⟩

/-- **C2 counterexample** — The parser does not keep only
directory-denoting entries: the file entry `node_modules/app.js` (no
trailing separator) contributes the candidate `/r/node_modules`, and
the kept path is the truncated builtin prefix, not the entry itself. -/
theorem c2_file_entry_contributes :
    parse_git_ignored ["/r"] "node_modules/app.js\x00"
      = [["/r", "node_modules"]] ∧
    strEndsWith "node_modules/app.js" "/" = false := by
  constructor
  · decide
  · decide

/-- **C2 (amended)** — For every repository root and NUL-delimited
listing, the parser derives each candidate from an entry (file or
directory alike) by truncating at the entry's first builtin-named
component, resolves that non-empty prefix under the repository root,
and deduplicates via a set, so no path appears twice in its output. -/
theorem c2_parse_dedup_under_root (repo : List String) (output : String) :
    (parse_git_ignored repo output).Nodup ∧
    (∀ p ∈ parse_git_ignored repo output,
      ∃ line ∈ gitEntries output, ∃ pre,
        firstBuiltinSeg (pathComponents line) = some pre ∧
        p = repo ++ pre ∧ pre ≠ []) := by
  constructor
  · rw [parse_git_ignored]
    exact parse_fold_nodup repo (gitEntries output) [] List.nodup_nil
  · intro p hp
    obtain ⟨line, hl, pre, hs, hpre⟩ :=
      (parse_git_ignored_mem repo output p).mp hp
    obtain ⟨q, b, hqb, -, -, -⟩ := firstBuiltinSeg_some_shape _ _ hs
    exact ⟨line, hl, pre, hs, hpre, by
      rw [hqb]
      simp⟩

/-- Witness for C2 (amended) at a concrete two-entry listing with a
repeated artifact directory. -/
theorem c2_parse_dedup_under_root_witness :
    (parse_git_ignored ["/r"] "target/a\x00target/b\x00").Nodup ∧
    (∃ line ∈ gitEntries "target/a\x00target/b\x00", ∃ pre,
      firstBuiltinSeg (pathComponents line) = some pre ∧
      (["/r", "target"] : List String) = ["/r"] ++ pre ∧ pre ≠ []) :=
  ⟨(c2_parse_dedup_under_root ["/r"] "target/a\x00target/b\x00").1,
   (c2_parse_dedup_under_root ["/r"] "target/a\x00target/b\x00").2
     ["/r", "target"] (by decide)⟩

theorem processEntries_fold (dir : List String) :
    ∀ (entries : List DirEntry)
      (acc : List (List String) × List (List String)),
      (∀ p ∈ (entries.foldl
          (fun acc e =>
            if !e.isDir || e.isSymlink then acc
            else if is_builtin e.name then (acc.1 ++ [dir ++ [e.name]], acc.2)
            else (acc.1, acc.2 ++ [dir ++ [e.name]])) acc).1,
        p ∈ acc.1 ∨ ∃ n, p = dir ++ [n] ∧ is_builtin n = true) ∧
      (∀ p ∈ (entries.foldl
          (fun acc e =>
            if !e.isDir || e.isSymlink then acc
            else if is_builtin e.name then (acc.1 ++ [dir ++ [e.name]], acc.2)
            else (acc.1, acc.2 ++ [dir ++ [e.name]])) acc).2,
        p ∈ acc.2 ∨ ∃ n, p = dir ++ [n] ∧ is_builtin n = false) := by
  intro entries
  induction entries with
  | nil => intro acc; exact ⟨fun p hp => Or.inl hp, fun p hp => Or.inl hp⟩
  | cons e rest ih =>
    intro acc
    rw [List.foldl_cons]
    by_cases hskip : (!e.isDir || e.isSymlink) = true
    · rw [if_pos hskip]
      exact ih acc
    · rw [if_neg hskip]
      by_cases hb : is_builtin e.name
      · rw [if_pos hb]
        refine ⟨?_, ?_⟩
        · intro p hp
          rcases (ih _).1 p hp with hacc | hsh
          · rcases List.mem_append.mp hacc with h1 | h2
            · exact Or.inl h1
            · exact Or.inr ⟨e.name, List.mem_singleton.mp h2, hb⟩
          · exact Or.inr hsh
        · intro p hp
          exact (ih (acc.1 ++ [dir ++ [e.name]], acc.2)).2 p hp
      · rw [if_neg hb]
        rw [Bool.not_eq_true] at hb
        refine ⟨?_, ?_⟩
        · intro p hp
          exact (ih (acc.1, acc.2 ++ [dir ++ [e.name]])).1 p hp
        · intro p hp
          rcases (ih _).2 p hp with hacc | hsh
          · rcases List.mem_append.mp hacc with h1 | h2
            · exact Or.inl h1
            · exact Or.inr ⟨e.name, List.mem_singleton.mp h2, hb⟩
          · exact Or.inr hsh

theorem processEntries_found (dir : List String) (entries : List DirEntry) :
    ∀ p ∈ (processEntries dir entries).1,
      ∃ n, p = dir ++ [n] ∧ is_builtin n = true := by
  intro p hp
  rcases (processEntries_fold dir entries ([], [])).1 p hp with h | h
  · simp at h
  · exact h

theorem processEntries_pushed (dir : List String) (entries : List DirEntry) :
    ∀ p ∈ (processEntries dir entries).2,
      ∃ n, p = dir ++ [n] ∧ is_builtin n = false := by
  intro p hp
  rcases (processEntries_fold dir entries ([], [])).2 p hp with h | h
  · simp at h
  · exact h

theorem traverseLoop_results (fs : Fs) (ign : List (List String)) :
    ∀ (fuel : Nat) (stack res git : List (List String)),
      (∀ p ∈ stack, ∀ c ∈ p, is_builtin c = false) →
      ∀ r ∈ (traverseLoop fs ign fuel stack res git).1,
        r ∈ res ∨ ∃ q n, r = q ++ [n] ∧ is_builtin n = true ∧
          ∀ c ∈ q, is_builtin c = false := by
  intro fuel
  induction fuel with
  | zero =>
    intro stack res git _ r hr
    exact Or.inl hr
  | succ fuel ih =>
    intro stack res git hst r hr
    cases stack with
    | nil => exact Or.inl hr
    | cons dir rest =>
      have hdir : ∀ c ∈ dir, is_builtin c = false :=
        hst dir (List.mem_cons_self _ _)
      have hrest : ∀ p ∈ rest, ∀ c ∈ p, is_builtin c = false :=
        fun p hp => hst p (List.mem_cons_of_mem _ hp)
      rw [traverseLoop] at hr
      by_cases h1 : (!fs.isDir dir) = true
      · rw [if_pos h1] at hr
        exact ih rest res git hrest r hr
      · rw [if_neg h1] at hr
        by_cases h2 : ign.contains dir = true
        · rw [if_pos h2] at hr
          exact ih rest res git hrest r hr
        · rw [if_neg h2] at hr
          by_cases h3 : fs.isDir (dir ++ [".git"]) = true
          · rw [if_pos h3] at hr
            exact ih rest res (git ++ [dir]) hrest r hr
          · rw [if_neg h3] at hr
            cases hrd : fs.readDir dir with
            | none =>
              rw [hrd] at hr
              exact ih rest res git hrest r hr
            | some entries =>
              rw [hrd] at hr
              simp only at hr
              have hstack2 : ∀ p ∈ (processEntries dir entries).2.reverse
                  ++ rest, ∀ c ∈ p, is_builtin c = false := by
                intro p hp
                rcases List.mem_append.mp hp with hp1 | hp2
                · rw [List.mem_reverse] at hp1
                  obtain ⟨n, rfl, hn⟩ := processEntries_pushed dir entries p hp1
                  intro c hc
                  rcases List.mem_append.mp hc with hc1 | hc2
                  · exact hdir c hc1
                  · rw [List.mem_singleton.mp hc2]
                    exact hn
                · exact hrest p hp2
              rcases ih _ _ git hstack2 r hr with hres | hsh
              · rcases List.mem_append.mp hres with hr1 | hr2
                · exact Or.inl hr1
                · obtain ⟨n, rfl, hn⟩ := processEntries_found dir entries r hr2
                  exact Or.inr ⟨dir, n, rfl, hn, hdir⟩
              · exact Or.inr hsh

/-- **C9** — The plain-tree traversal treats matched artifact
directories as opaque: a child whose basename is in the builtin set
is recorded and never pushed for descent (first conjunct: everything
the loop body pushes onto the stack has a non-builtin basename), and
when no search root lies at or below a builtin-named path, every
candidate the walk records is a directory with a builtin basename
none of whose ancestors is builtin-named — hence no candidate lies
strictly inside another matched artifact directory. -/
theorem c9_no_descend_into_artifacts :
    (∀ (dir : List String) (entries : List DirEntry),
      ∀ p ∈ (processEntries dir entries).2,
        ∃ n, p = dir ++ [n] ∧ is_builtin n = false) ∧
    (∀ (fs : Fs) (ign : List (List String)) (fuel : Nat)
        (roots : List (List String)),
      (∀ p ∈ roots, ∀ c ∈ p, is_builtin c = false) →
      ∀ r ∈ plainTraverse fs ign fuel roots,
        ∃ q n, r = q ++ [n] ∧ is_builtin n = true ∧
          ∀ c ∈ q, is_builtin c = false) := by
  refine ⟨processEntries_pushed, ?_⟩
  intro fs ign fuel roots hroots r hr
  have hstack : ∀ p ∈ roots.reverse, ∀ c ∈ p, is_builtin c = false := by
    intro p hp
    exact hroots p (List.mem_reverse.mp hp)
  rcases traverseLoop_results fs ign fuel roots.reverse [] [] hstack r hr
    with h0 | hsh
  · exact absurd h0 (List.not_mem_nil r)
  · exact hsh

/-- Witness for C9 on the demo filesystem: the walk from root `r`
records `r/node_modules` and that candidate decomposes as required. -/
theorem c9_no_descend_into_artifacts_witness :
    ∃ q n, (["r", "node_modules"] : List String) = q ++ [n] ∧
      is_builtin n = true ∧ ∀ c ∈ q, is_builtin c = false :=
  c9_no_descend_into_artifacts.2 demoFs [] 4 [["r"]] (by decide)
    ["r", "node_modules"] (by decide)

end Veiled
